import Mathlib

/-!
# star-watch: verification of the synchronization-and-enrichment pipeline

Shallow embedding of the star-watch repository's core logic:

* `internal/models/repo.go`       — the `Repo` entity.
* `internal/github` (strategies)  — `ForwardStrategy.Fetch` and
  `IncrementalStrategy.Fetch` over a cursor-paginated remote collection.
* `internal/embedding/embedding.go` — `Client.Embed` batched embedding.
* `internal/surrealdb` client     — `UpsertRepo` (MERGE semantics),
  `UpdateEnrichment`, field allow-list, and `VectorSearch` query building.
* `internal/pipeline/pipeline.go` — `loadRepos` cache fallback and the
  enrichment fan-out of `Run` (modelled sequentially: tasks write to
  disjoint keys and the claims concern error propagation and final store
  state, not interleaving).
* `cmd/star-watch/main.go`        — `parseFields` / `parseSort` front-end
  validation for the search command.

The remote paginated collection is modelled as a list of pages (oldest page
first, items within a page oldest-to-newest, matching the connection order
the Go code relies on).  Forward pagination walks the pages left-to-right,
backward pagination right-to-left, mirroring `FetchPageForward` /
`FetchPageBackward` with `HasNextPage` / `HasPreviousPage` derived from the
position in the page list.
-/

namespace StarWatch

/-- `models.Repo` from `internal/models/repo.go`.  Go pointer-typed fields
(`*string`) become `Option`; nil-able slices that the code normalises to
empty (`Topics`, `AICategories`) become plain lists.  The embedding payload
is kept opaque as `List Int` (the claims never inspect float values). -/
structure Repo where
  owner : String
  name : String
  fullName : String
  description : Option String := none
  url : String := ""
  homepageURL : Option String := none
  stars : Int := 0
  language : Option String := none
  topics : List String := []
  readmeExcerpt : Option String := none
  aiSummary : Option String := none
  aiCategories : List String := []
  embedding : List Int := []
deriving Repr, DecidableEq

/-! ## StarSource strategies (`internal/github`, strategies file)

A `Page` in the Go code carries `Repos`, `TotalCount` and the four
cursor/has-more flags.  In the model a remote collection is
`remote : List (List Repo)`; the page at index `i` has
`HasNextPage = (i+1 < remote.length)` and `HasPreviousPage = (0 < i)`,
and the cursors simply move to the adjacent index.  `TotalCount` is only
printed by the Go code and is dropped. -/

/-- The known-name set that `IncrementalStrategy.Fetch` builds:
`known := map[string]bool` over `cached`, queried by `FullName`. -/
def knownNames (cached : List Repo) : List String :=
  cached.map (·.fullName)

/-- One page's `newOnPage` slice: the per-item partition of
`IncrementalStrategy.Fetch` keeps the repos whose full name is not in the
known set, preserving page order. -/
def pageNew (known : List String) (page : List Repo) : List Repo :=
  page.filter (fun r => !(known.contains r.fullName))

/-- One page's `hitKnown` flag: true iff some repo on the page has its full
name in the known set. -/
def pageHitKnown (known : List String) (page : List Repo) : Bool :=
  page.any (fun r => known.contains r.fullName)

/-- The backward-pagination loop of `IncrementalStrategy.Fetch`.  The
argument is the page list in backward fetch order (newest page first,
i.e. `remote.reverse`).  Returns the collected non-empty `newOnPage`
pages in fetch order together with the number of `FetchPageBackward`
calls made.  The loop breaks when `hitKnown || !page.PageInfo.HasPreviousPage`;
in the model the latter is `rest.isEmpty`. -/
def backwardLoop (known : List String) : List (List Repo) → List (List Repo) × Nat
  | [] => ([], 0)
  | p :: rest =>
    let newOnPage := pageNew known p
    let acc := if newOnPage.isEmpty then [] else [newOnPage]
    if pageHitKnown known p || rest.isEmpty then (acc, 1)
    else
      let step := backwardLoop known rest
      (acc ++ step.1, step.2 + 1)

/-- `ForwardStrategy.Fetch`: pages forward accumulating every item, breaking
when `!page.PageInfo.HasNextPage`.  Returns the accumulated repos and the
number of `FetchPageForward` calls. -/
def forwardFetch : List (List Repo) → List Repo × Nat
  | [] => ([], 0)
  | p :: rest =>
    if rest.isEmpty then (p, 1)
    else
      let step := forwardFetch rest
      (p ++ step.1, step.2 + 1)

/-- `IncrementalStrategy.Fetch`: with an empty cache it delegates to the
forward strategy; otherwise it paginates backward collecting new-item
pages, returns `cached` unchanged when no new page was found, and
otherwise appends the reversed page collection after `cached`. -/
def incrementalFetch (cached : List Repo) (remote : List (List Repo)) :
    List Repo × Nat :=
  if cached.isEmpty then forwardFetch remote
  else
    let run := backwardLoop (knownNames cached) remote.reverse
    if run.1.isEmpty then (cached, run.2)
    else (cached ++ run.1.reverse.flatten, run.2)

/-- Pages fetched backward until (and including) the first page from the end
containing a known item; when no page contains a known item this is one
past the page count. -/
def pagesUntilFirstKnown (known : List String) (remote : List (List Repo)) : Nat :=
  (remote.reverse.takeWhile (fun p => !pageHitKnown known p)).length + 1

/-- The number of backward page fetches the incremental loop performs on a
non-empty cache: it stops at the first known item or at the oldest page,
whichever comes first. -/
def fetchedPageCount (known : List String) (remote : List (List Repo)) : Nat :=
  min (pagesUntilFirstKnown known remote) remote.length

/-- Closed form of the backward loop: on a page list `l` (backward fetch
order) it fetches `min (pages-until-first-known) l.length` pages and keeps
the non-empty new-item parts of the fetched pages, in fetch order. -/
theorem backwardLoop_eq (known : List String) (l : List (List Repo)) :
    backwardLoop known l =
      (((l.take (min ((l.takeWhile (fun p => !pageHitKnown known p)).length + 1)
            l.length)).map (pageNew known)).filter (fun q => !q.isEmpty),
       min ((l.takeWhile (fun p => !pageHitKnown known p)).length + 1) l.length) := by
  induction l with
  | nil => simp [backwardLoop]
  | cons p rest ih =>
    by_cases hk : pageHitKnown known p
    · have hmin : min ((List.takeWhile (fun p => !pageHitKnown known p)
          (p :: rest)).length + 1) (p :: rest).length = 1 := by
        simp [List.takeWhile_cons, hk]
      rw [hmin]
      cases hne : (pageNew known p).isEmpty <;>
        simp [backwardLoop, hk, hne, List.filter_cons]
    · by_cases hrest : rest.isEmpty
      · have hr : rest = [] := List.isEmpty_iff.mp hrest
        subst hr
        have hmin : min ((List.takeWhile (fun p => !pageHitKnown known p)
            ([p] : List (List Repo))).length + 1) ([p] : List (List Repo)).length = 1 := by
          simp [List.takeWhile_cons, hk]
        rw [hmin]
        cases hne : (pageNew known p).isEmpty <;>
          simp [backwardLoop, hk, hne, List.filter_cons]
      · have hmin : min ((List.takeWhile (fun p => !pageHitKnown known p)
              (p :: rest)).length + 1) (p :: rest).length =
            min ((List.takeWhile (fun p => !pageHitKnown known p) rest).length + 1)
              rest.length + 1 := by
          simp only [List.takeWhile_cons, hk]
          simp only [Bool.not_true, Bool.not_false, if_true]
          simp only [List.length_cons]
          omega
        rw [hmin, List.take_succ_cons, List.map_cons]
        cases hne : (pageNew known p).isEmpty <;>
          simp [backwardLoop, hk, hrest, hne, List.filter_cons, ih]

/-- Closed form of the forward loop: it fetches every page once and returns
every item in page order. -/
theorem forwardFetch_eq (l : List (List Repo)) :
    forwardFetch l = (l.flatten, l.length) := by
  induction l with
  | nil => simp [forwardFetch]
  | cons p rest ih =>
    by_cases hrest : rest.isEmpty
    · have hr : rest = [] := List.isEmpty_iff.mp hrest
      subst hr
      simp [forwardFetch]
    · simp [forwardFetch, hrest, ih]

/-- With an empty known set every page is entirely new. -/
theorem pageNew_nil (page : List Repo) : pageNew [] page = page := by
  simp [pageNew]

/-- With an empty known set no page hits a known item. -/
theorem pageHitKnown_nil (page : List Repo) : pageHitKnown [] page = false := by
  simp [pageHitKnown]

/-- A trivially-true predicate takes the whole list. -/
theorem takeWhile_all_true {α : Type} (l : List α) :
    l.takeWhile (fun _ => true) = l := by
  induction l with
  | nil => rfl
  | cons a t ih => simp [List.takeWhile_cons, ih]

/-- With an empty known set the per-item partition keeps every page whole. -/
theorem map_pageNew_nil (l : List (List Repo)) : l.map (pageNew []) = l := by
  induction l with
  | nil => rfl
  | cons a t ih => simp [pageNew_nil, ih]

/-- Reordering bridge: the collected backward pages, reversed and
flattened, are exactly the new items of the fetched suffix of the remote
in oldest-to-newest order. -/
theorem collected_reverse_flatten (known : List String) (remote : List (List Repo))
    (m : Nat) :
    ((((remote.reverse.take m).map (pageNew known)).filter
        (fun q => !q.isEmpty)).reverse).flatten =
      ((remote.drop (remote.length - m)).map (pageNew known)).flatten := by
  rw [← List.filter_reverse, List.flatten_filter_not_isEmpty, ← List.map_reverse,
    List.take_reverse, List.reverse_reverse]

/-- C1: for every known set and every backward-paginated remote,
`IncrementalStrategy.Fetch` partitions each fetched page per item into
known and new (`pageNew`), stops at the first page containing a known item
or at the oldest page, returns exactly the known set followed by the
fetched pages' new items in oldest-to-newest order (the fetched pages are
the last `fetchedPageCount` pages of the remote), and performs
`fetchedPageCount` backward page calls, which never exceeds the number of
pages until (and including) the first page with a known item. -/
theorem incrementalFetch_characterization (cached : List Repo)
    (remote : List (List Repo)) :
    incrementalFetch cached remote =
      (cached ++
        ((remote.drop
              (remote.length - fetchedPageCount (knownNames cached) remote)).map
            (pageNew (knownNames cached))).flatten,
       fetchedPageCount (knownNames cached) remote)
    ∧ fetchedPageCount (knownNames cached) remote ≤
        pagesUntilFirstKnown (knownNames cached) remote := by
  refine ⟨?_, Nat.min_le_left _ _⟩
  by_cases hc : cached.isEmpty
  · have hc' : cached = [] := List.isEmpty_iff.mp hc
    subst hc'
    have hm : fetchedPageCount (knownNames []) remote = remote.length := by
      simp only [fetchedPageCount, pagesUntilFirstKnown, knownNames, List.map_nil,
        pageHitKnown_nil, Bool.not_false, takeWhile_all_true, List.length_reverse]
      omega
    rw [hm]
    simp [incrementalFetch, forwardFetch_eq, knownNames, map_pageNew_nil]
  · have hm : fetchedPageCount (knownNames cached) remote =
        min ((remote.reverse.takeWhile
            (fun p => !pageHitKnown (knownNames cached) p)).length + 1)
          remote.reverse.length := by
      simp [fetchedPageCount, pagesUntilFirstKnown]
    rw [incrementalFetch, if_neg (by simp [hc]), backwardLoop_eq]
    by_cases he : (((remote.reverse.take
          (min ((remote.reverse.takeWhile
              (fun p => !pageHitKnown (knownNames cached) p)).length + 1)
            remote.reverse.length)).map (pageNew (knownNames cached))).filter
        (fun q => !q.isEmpty)).isEmpty
    · have hnil := List.isEmpty_iff.mp he
      have hflat : ((remote.drop
            (remote.length - fetchedPageCount (knownNames cached) remote)).map
          (pageNew (knownNames cached))).flatten = [] := by
        rw [← collected_reverse_flatten (knownNames cached) remote
          (fetchedPageCount (knownNames cached) remote)]
        rw [hm, hnil]
        simp
      simp only [he, if_true, hflat, List.append_nil]
      exact Prod.ext rfl hm.symm
    · rw [if_neg he]
      refine Prod.ext ?_ hm.symm
      simp only []
      rw [← hm, collected_reverse_flatten]

/-- C8: with an empty known set `IncrementalStrategy.Fetch` delegates to
the forward strategy, returning the same item list and issuing the same
page fetches on every remote collection. -/
theorem incrementalFetch_empty_cache_eq_forward (remote : List (List Repo)) :
    incrementalFetch [] remote = forwardFetch remote := rfl

/-- Sanity: mixed page — known/new boundary inside a page is handled per
item, and a new page behind the boundary page is not fetched. -/
example :
    let rK : Repo := { owner := "o", name := "k", fullName := "o/k" }
    let rN : Repo := { owner := "o", name := "n", fullName := "o/n" }
    let rM : Repo := { owner := "o", name := "m", fullName := "o/m" }
    incrementalFetch [rK] [[rM], [rK, rN]] = ([rK, rN], 1) := by decide

/-- Sanity: boundary at a page boundary — all new pages are appended
oldest-to-newest and the loop stops on the first known page. -/
example :
    let rK : Repo := { owner := "o", name := "k", fullName := "o/k" }
    let rA : Repo := { owner := "o", name := "a", fullName := "o/a" }
    let rB : Repo := { owner := "o", name := "b", fullName := "o/b" }
    incrementalFetch [rK] [[rK], [rA], [rB]] = ([rK, rA, rB], 3) := by decide

/-! ## Embedding Batcher (`internal/embedding/embedding.go`, `Client.Embed`)

The external Embedder (`client.CreateEmbeddings`) is a parameter
`embedder : List String → Option (List (Nat × α))`: for a request batch it
either fails (`none`) or returns `resp.Data`, a list of (per-request
index, vector) pairs in arbitrary order; vectors are opaque (`α`).  The Go
loop writes `vectors[start+emb.Index] = emb.Embedding` into a slice
pre-sized to `len(texts)` whose entries start as nil (`none` here); an
out-of-range index would panic in Go, modelled as `none` (the call does
not return normally).  As ghost instrumentation the model also returns the
list of request batches issued, so claims about call counts and chunking
are statements about the returned trace. -/

def maxBatchSize : Nat := 256

/-- The write-back loop body `for _, emb := range resp.Data`. -/
def writeResp (vectors : List (Option α)) (start : Nat) :
    List (Nat × α) → Option (List (Option α))
  | [] => some vectors
  | (i, v) :: rest =>
    if start + i < vectors.length then
      writeResp (vectors.set (start + i) (some v)) start rest
    else none

/-- The chunking loop `for start := 0; start < len(texts); start += maxBatchSize`.
Returns the filled vector slice and the batches requested, oldest first. -/
def embedLoop (embedder : List String → Option (List (Nat × α)))
    (texts : List String) (vectors : List (Option α)) (start : Nat) :
    Option (List (Option α) × List (List String)) :=
  if start < texts.length then
    match embedder ((texts.drop start).take maxBatchSize) with
    | none => none
    | some resp =>
      match writeResp vectors start resp with
      | none => none
      | some v =>
        match embedLoop embedder texts v (maxBatchSize + start) with
        | none => none
        | some (w, calls) => some (w, ((texts.drop start).take maxBatchSize) :: calls)
  else some (vectors, [])
termination_by texts.length - start
decreasing_by simp [maxBatchSize]; omega

/-- `Client.Embed`: returns `nil, nil` on an empty input, otherwise runs the
chunking loop over a slice pre-sized to `len(texts)`. -/
def Embed (embedder : List String → Option (List (Nat × α)))
    (texts : List String) : Option (List (Option α) × List (List String)) :=
  if texts.length = 0 then some ([], [])
  else embedLoop embedder texts (List.replicate texts.length none) 0

/-- A successful write-back pass preserves the slice length. -/
theorem writeResp_length {α : Type} :
    ∀ (r : List (Nat × α)) (vectors : List (Option α)) (start : Nat)
      (w : List (Option α)),
      writeResp vectors start r = some w → w.length = vectors.length := by
  intro r
  induction r with
  | nil =>
    intro vectors start w h
    simp [writeResp] at h
    rw [← h]
  | cons p rest ih =>
    intro vectors start w h
    obtain ⟨i, v⟩ := p
    rw [writeResp] at h
    by_cases hb : start + i < vectors.length
    · rw [if_pos hb] at h
      have := ih (vectors.set (start + i) (some v)) start w h
      simpa using this
    · rw [if_neg hb] at h
      exact absurd h (by simp)

/-- Element-level characterization of the write-back pass: the value at a
position is the last response pair written there, or the original entry
when no pair targets it. -/
theorem writeResp_getElem? {α : Type} :
    ∀ (r : List (Nat × α)) (vectors : List (Option α)) (start : Nat)
      (w : List (Option α)),
      writeResp vectors start r = some w →
      ∀ j : Nat,
        w[j]? = match r.reverse.find? (fun q => start + q.1 == j) with
          | some q => some (some q.2)
          | none => vectors[j]? := by
  intro r
  induction r with
  | nil =>
    intro vectors start w h j
    simp [writeResp] at h
    rw [← h]
    simp
  | cons p rest ih =>
    intro vectors start w h j
    obtain ⟨i, v⟩ := p
    rw [writeResp] at h
    by_cases hb : start + i < vectors.length
    · rw [if_pos hb] at h
      have hrec := ih (vectors.set (start + i) (some v)) start w h j
      rw [hrec]
      rw [List.reverse_cons, List.find?_append]
      cases hfind : rest.reverse.find? (fun q => start + q.1 == j) with
      | some q => simp [Option.or]
      | none =>
        simp only [Option.or, List.find?]
        by_cases hj : start + i = j
        · have hij : (start + i == j) = true := by simp [hj]
          simp only [hij]
          rw [List.getElem?_set]
          rw [if_pos hj, if_pos (by omega)]
        · have hij : (start + i == j) = false := by simp [hj]
          simp only [hij]
          rw [List.getElem?_set, if_neg hj]
    · rw [if_neg hb] at h
      exact absurd h (by simp)

/-- The write-back pass succeeds when every response index is in range. -/
theorem writeResp_isSome {α : Type} :
    ∀ (r : List (Nat × α)) (vectors : List (Option α)) (start : Nat),
      (∀ p ∈ r, start + p.1 < vectors.length) →
      ∃ w, writeResp vectors start r = some w := by
  intro r
  induction r with
  | nil =>
    intro vectors start _
    exact ⟨vectors, rfl⟩
  | cons p rest ih =>
    intro vectors start hbound
    obtain ⟨i, v⟩ := p
    have hb : start + i < vectors.length := hbound (i, v) (by simp)
    obtain ⟨w, hw⟩ := ih (vectors.set (start + i) (some v)) start
      (by intro q hq; simpa using hbound q (List.mem_cons_of_mem _ hq))
    exact ⟨w, by rw [writeResp, if_pos hb]; exact hw⟩

/-- The Embedder may return its `(index, vector)` pairs in any order; if
they are a permutation of the per-position pairs for the batch, the
write-back pass fills positions `start..start+batch.length-1` with the
vector of the corresponding batch text and leaves everything else
untouched. -/
theorem writeResp_of_perm {α : Type} (f : String → α) (batch : List String)
    (resp : List (Nat × α))
    (hperm : resp.Perm (batch.enum.map (fun p => (p.1, f p.2))))
    (vectors : List (Option α)) (start : Nat)
    (hlen : start + batch.length ≤ vectors.length) :
    ∃ w, writeResp vectors start resp = some w
      ∧ w.length = vectors.length
      ∧ (∀ j : Nat, j < start → w[j]? = vectors[j]?)
      ∧ (∀ j : Nat, start ≤ j → j < start + batch.length →
          w[j]? = (batch[j - start]?).map (fun t => some (f t)))
      ∧ (∀ j : Nat, start + batch.length ≤ j → w[j]? = vectors[j]?) := by
  have hchar : ∀ p ∈ resp, ∃ t, batch[p.1]? = some t ∧ p.2 = f t := by
    intro p hp
    have hp' : p ∈ batch.enum.map (fun q => (q.1, f q.2)) := hperm.mem_iff.mp hp
    obtain ⟨q, hq, hqp⟩ := List.mem_map.mp hp'
    have hq' : batch[q.1]? = some q.2 := List.mem_enum_iff_getElem?.mp hq
    exact ⟨q.2, by rw [← hqp]; exact hq', by rw [← hqp]⟩
  have hbound : ∀ p ∈ resp, p.1 < batch.length := by
    intro p hp
    obtain ⟨t, ht, -⟩ := hchar p hp
    have := List.getElem?_eq_some.mp ht
    exact this.1
  obtain ⟨w, hw⟩ := writeResp_isSome resp vectors start
    (fun p hp => by have := hbound p hp; omega)
  have hget := writeResp_getElem? resp vectors start w hw
  refine ⟨w, hw, writeResp_length resp vectors start w hw, ?_, ?_, ?_⟩
  · intro j hj
    rw [hget j]
    cases hfind : resp.reverse.find? (fun q => start + q.1 == j) with
    | some q =>
      exfalso
      have hpred := List.find?_some hfind
      have : start + q.1 = j := by simpa using hpred
      omega
    | none => rfl
  · intro j hj1 hj2
    have hi : j - start < batch.length := by omega
    have hbj : batch[j - start]? = some (batch[j - start]) := List.getElem?_eq_getElem hi
    have hmem : ((j - start : Nat), f (batch[j - start])) ∈ resp := by
      apply hperm.mem_iff.mpr
      apply List.mem_map.mpr
      exact ⟨(j - start, batch[j - start]), List.mem_enum_iff_getElem?.mpr hbj, rfl⟩
    have hsome : (resp.reverse.find? (fun q => start + q.1 == j)).isSome := by
      apply List.find?_isSome.mpr
      refine ⟨(j - start, f (batch[j - start])), List.mem_reverse.mpr hmem, ?_⟩
      simp
      omega
    obtain ⟨q, hfind⟩ := Option.isSome_iff_exists.mp hsome
    rw [hget j, hfind]
    have hpred : start + q.1 = j := by simpa using List.find?_some hfind
    have hqmem : q ∈ resp := List.mem_reverse.mp (List.mem_of_find?_eq_some hfind)
    obtain ⟨t, ht, hv⟩ := hchar q hqmem
    have hq1 : q.1 = j - start := by omega
    rw [hq1] at ht
    rw [hbj] at ht
    rw [hbj]
    have ht' : batch[j - start] = t := Option.some_injective _ ht
    simp [hv, ht']
  · intro j hj
    rw [hget j]
    cases hfind : resp.reverse.find? (fun q => start + q.1 == j) with
    | some q =>
      exfalso
      have hpred : start + q.1 = j := by simpa using List.find?_some hfind
      have hqmem : q ∈ resp := List.mem_reverse.mp (List.mem_of_find?_eq_some hfind)
      have := hbound q hqmem
      omega
    | none => rfl

/-- Loop exit: once `start` reaches the input length no call is made. -/
theorem embedLoop_stop {α : Type} (embedder : List String → Option (List (Nat × α)))
    (texts : List String) (vectors : List (Option α)) (start : Nat)
    (hs : ¬ start < texts.length) :
    embedLoop embedder texts vectors start = some (vectors, []) := by
  unfold embedLoop
  rw [if_neg hs]

/-- Loop step: one iteration issues one Embedder call for the chunk at
`start` and recurses `maxBatchSize` further. -/
theorem embedLoop_step {α : Type} (embedder : List String → Option (List (Nat × α)))
    (texts : List String) (vectors : List (Option α)) (start : Nat)
    (resp : List (Nat × α)) (v w : List (Option α)) (calls : List (List String))
    (hs : start < texts.length)
    (hresp : embedder ((texts.drop start).take maxBatchSize) = some resp)
    (hw : writeResp vectors start resp = some v)
    (hl : embedLoop embedder texts v (maxBatchSize + start) = some (w, calls)) :
    embedLoop embedder texts vectors start =
      some (w, ((texts.drop start).take maxBatchSize) :: calls) := by
  unfold embedLoop
  rw [if_pos hs, hresp]
  simp only [hw, hl]

/-- Conclusion of the chunking-loop specification, from position `start`. -/
def EmbedLoopSpec {α : Type} (embedder : List String → Option (List (Nat × α)))
    (f : String → α) (texts : List String) (vectors : List (Option α))
    (start : Nat) : Prop :=
  ∃ w calls, embedLoop embedder texts vectors start = some (w, calls)
    ∧ w.length = texts.length
    ∧ (∀ j : Nat, j < start → w[j]? = vectors[j]?)
    ∧ (∀ j : Nat, start ≤ j → w[j]? = (texts[j]?).map (fun t => some (f t)))
    ∧ calls.flatten = texts.drop start
    ∧ (∀ b ∈ calls, b.length ≤ maxBatchSize)
    ∧ calls.length = (texts.length - start + (maxBatchSize - 1)) / maxBatchSize

/-- The loop specification holds trivially past the end of the input. -/
theorem embedLoopSpec_stop {α : Type} (embedder : List String → Option (List (Nat × α)))
    (f : String → α) (texts : List String) (vectors : List (Option α)) (start : Nat)
    (hs : ¬ start < texts.length) (hv : vectors.length = texts.length) :
    EmbedLoopSpec embedder f texts vectors start := by
  have hmb : maxBatchSize = 256 := rfl
  refine ⟨vectors, [], embedLoop_stop embedder texts vectors start hs, hv,
    fun j _ => rfl, ?_, ?_, ?_, ?_⟩
  · intro j hj
    have h1 : texts[j]? = none := List.getElem?_eq_none (by omega)
    have h2 : vectors[j]? = none := List.getElem?_eq_none (by omega)
    rw [h1, h2]
    rfl
  · rw [List.flatten_nil, List.drop_eq_nil_of_le (by omega)]
  · intro b hb
    exact absurd hb (List.not_mem_nil b)
  · rw [List.length_nil, hmb]
    omega

/-- The chunking loop, run against an Embedder that answers every batch
with an arbitrary permutation of the indexed per-text vectors, succeeds
and satisfies the full loop specification. -/
theorem embedLoop_spec {α : Type} (f : String → α)
    (embedder : List String → Option (List (Nat × α)))
    (hemb : ∀ b, ∃ r, embedder b = some r ∧
      r.Perm (b.enum.map (fun p => (p.1, f p.2))))
    (texts : List String) :
    ∀ (fuel start : Nat) (vectors : List (Option α)),
      texts.length - start ≤ fuel →
      vectors.length = texts.length →
      EmbedLoopSpec embedder f texts vectors start := by
  have hmb : maxBatchSize = 256 := rfl
  intro fuel
  induction fuel with
  | zero =>
    intro start vectors hf hv
    exact embedLoopSpec_stop embedder f texts vectors start (by omega) hv
  | succ n ih =>
    intro start vectors hf hv
    by_cases hs : start < texts.length
    · obtain ⟨resp, hresp, hperm⟩ := hemb ((texts.drop start).take maxBatchSize)
      have hblen : ((texts.drop start).take maxBatchSize).length =
          min maxBatchSize (texts.length - start) := by
        simp
      obtain ⟨v1, hw1, hlen1, hlow1, hmid1, hhigh1⟩ :=
        writeResp_of_perm f ((texts.drop start).take maxBatchSize) resp hperm
          vectors start (by rw [hv]; omega)
      obtain ⟨w, calls, hloop, hwlen, hlow2, hhigh2, hflat, hble, hclen⟩ :=
        ih (maxBatchSize + start) v1 (by omega) (by rw [hlen1, hv])
      refine ⟨w, ((texts.drop start).take maxBatchSize) :: calls,
        embedLoop_step embedder texts vectors start resp v1 w calls hs hresp hw1 hloop,
        hwlen, ?_, ?_, ?_, ?_, ?_⟩
      · intro j hj
        rw [hlow2 j (by omega)]
        exact hlow1 j hj
      · intro j hj
        by_cases hj2 : j < start + ((texts.drop start).take maxBatchSize).length
        · rw [hlow2 j (by omega), hmid1 j hj hj2]
          have hjs : j - start < maxBatchSize := by omega
          have hb : ((texts.drop start).take maxBatchSize)[j - start]? =
              texts[j]? := by
            rw [List.getElem?_take_of_lt hjs, List.getElem?_drop]
            congr 1
            omega
          rw [hb]
        · by_cases hj3 : j < maxBatchSize + start
          · have hlen2 : texts.length ≤ j := by omega
            rw [hlow2 j hj3, hhigh1 j (by omega)]
            have h1 : texts[j]? = none := List.getElem?_eq_none (by omega)
            have h2 : vectors[j]? = none := List.getElem?_eq_none (by omega)
            rw [h1, h2]
            rfl
          · rw [hhigh2 j (by omega)]
      · rw [List.flatten_cons, hflat]
        have hdd : texts.drop (maxBatchSize + start) =
            (texts.drop start).drop maxBatchSize := by
          rw [List.drop_drop, Nat.add_comm]
        rw [hdd, List.take_append_drop]
      · intro b hb
        rcases List.mem_cons.mp hb with hb1 | hb2
        · rw [hb1]
          simp
        · exact hble b hb2
      · rw [List.length_cons, hclen, hmb]
        omega
    · exact embedLoopSpec_stop embedder f texts vectors start hs hv

/-- C2: `Client.Embed` splits its input into chunks of at most
`maxBatchSize` texts in original order (the issued batches concatenate
back to the input, so a 300-text input yields `(300+255)/256 = 2` calls),
issues one Embedder call per chunk, and — even when the Embedder answers
each request with its `(index, vector)` pairs in an order inconsistent
with the request order — the vector stored at position `i` is the one the
Embedder associated with the text at position `i`. -/
theorem Embed_chunking_and_alignment {α : Type} (f : String → α)
    (embedder : List String → Option (List (Nat × α))) (texts : List String)
    (hemb : ∀ b, ∃ r, embedder b = some r ∧
      r.Perm (b.enum.map (fun p => (p.1, f p.2)))) :
    ∃ w calls, Embed embedder texts = some (w, calls)
      ∧ w.length = texts.length
      ∧ (∀ j : Nat, w[j]? = (texts[j]?).map (fun t => some (f t)))
      ∧ calls.flatten = texts
      ∧ (∀ b ∈ calls, b.length ≤ maxBatchSize)
      ∧ calls.length = (texts.length + (maxBatchSize - 1)) / maxBatchSize := by
  by_cases h0 : texts.length = 0
  · have ht : texts = [] := List.length_eq_zero.mp h0
    subst ht
    refine ⟨[], [], rfl, rfl, ?_, rfl, ?_, by decide⟩
    · intro j
      rfl
    · intro b hb
      exact absurd hb (List.not_mem_nil b)
  · obtain ⟨w, calls, hloop, hwlen, -, hall, hflat, hble, hclen⟩ :=
      embedLoop_spec f embedder hemb texts texts.length 0
        (List.replicate texts.length (none : Option α)) (by omega)
        (List.length_replicate _ _)
    refine ⟨w, calls, ?_, hwlen, ?_, ?_, hble, ?_⟩
    · rw [Embed, if_neg h0]
      exact hloop
    · intro j
      exact hall j (Nat.zero_le j)
    · rw [hflat, List.drop_zero]
    · rw [hclen, Nat.sub_zero]

/-- A successful run of the chunking loop never changes the slice length
(no hypothesis on the Embedder: whatever it returned, the write-back only
`set`s in place). -/
theorem embedLoop_length {α : Type} (embedder : List String → Option (List (Nat × α)))
    (texts : List String) :
    ∀ (fuel start : Nat) (vectors w : List (Option α)) (calls : List (List String)),
      texts.length - start ≤ fuel →
      embedLoop embedder texts vectors start = some (w, calls) →
      w.length = vectors.length := by
  have hmb : maxBatchSize = 256 := rfl
  intro fuel
  induction fuel with
  | zero =>
    intro start vectors w calls hf h
    rw [embedLoop_stop embedder texts vectors start (by omega)] at h
    have h' : vectors = w := congrArg (·.1) (Option.some_injective _ h)
    rw [← h']
  | succ n ih =>
    intro start vectors w calls hf h
    by_cases hs : start < texts.length
    · unfold embedLoop at h
      rw [if_pos hs] at h
      cases hresp : embedder ((texts.drop start).take maxBatchSize) with
      | none => rw [hresp] at h; exact absurd h (by simp)
      | some resp =>
        rw [hresp] at h
        simp only at h
        cases hwr : writeResp vectors start resp with
        | none => rw [hwr] at h; exact absurd h (by simp)
        | some v =>
          rw [hwr] at h
          simp only at h
          cases hl : embedLoop embedder texts v (maxBatchSize + start) with
          | none => rw [hl] at h; exact absurd h (by simp)
          | some p =>
            obtain ⟨w', calls'⟩ := p
            rw [hl] at h
            simp only at h
            have hww : w' = w := congrArg (·.1) (Option.some_injective _ h)
            have h1 : w'.length = v.length :=
              ih (maxBatchSize + start) v w' calls' (by omega) hl
            have h2 : v.length = vectors.length :=
              writeResp_length resp vectors start v hwr
            rw [← hww, h1, h2]
    · rw [embedLoop_stop embedder texts vectors start hs] at h
      have h' : vectors = w := congrArg (·.1) (Option.some_injective _ h)
      rw [← h']

/-- C10: whenever `Client.Embed` returns without error the vector list has
exactly the length of the input text list (so the pipeline's write-back
loop indexing `vectors[i]` per target item stays in bounds), and on the
empty input it returns successfully having issued zero Embedder calls. -/
theorem Embed_length_and_empty {α : Type}
    (embedder : List String → Option (List (Nat × α))) (texts : List String) :
    (∀ w calls, Embed embedder texts = some (w, calls) → w.length = texts.length)
    ∧ Embed embedder ([] : List String) = some ([], []) := by
  constructor
  · intro w calls h
    by_cases h0 : texts.length = 0
    · rw [Embed, if_pos h0] at h
      have h' : ([] : List (Option α)) = w := congrArg (·.1) (Option.some_injective _ h)
      rw [← h']
      simpa using h0.symm
    · rw [Embed, if_neg h0] at h
      have := embedLoop_length embedder texts texts.length 0
        (List.replicate texts.length none) w calls (by omega) h
      rw [this, List.length_replicate]
  · rfl

/-- A test Embedder that answers every request with the indexed pairs in
reversed (hence request-order-inconsistent) order, embedding each text as
its length. -/
def shuffledEmbedder (b : List String) : Option (List (Nat × Nat)) :=
  some ((b.enum.map (fun p => (p.1, String.length p.2))).reverse)

/-- Witness for C2 at a concrete input: the shuffled Embedder still yields
position-aligned vectors. -/
theorem Embed_chunking_and_alignment_witness :
    ∃ w calls, Embed shuffledEmbedder ["a", "bb", "ccc"] = some (w, calls)
      ∧ w.length = (["a", "bb", "ccc"] : List String).length
      ∧ (∀ j : Nat, w[j]? = ((["a", "bb", "ccc"] : List String)[j]?).map
          (fun t => some (String.length t)))
      ∧ calls.flatten = ["a", "bb", "ccc"]
      ∧ (∀ b ∈ calls, b.length ≤ maxBatchSize)
      ∧ calls.length = ((["a", "bb", "ccc"] : List String).length +
          (maxBatchSize - 1)) / maxBatchSize :=
  Embed_chunking_and_alignment String.length shuffledEmbedder ["a", "bb", "ccc"]
    (fun _ => ⟨_, rfl, List.reverse_perm _⟩)

/-- Witness for C10 at a concrete input: an Embedder returning no data
still yields a full-length (all-`none`) vector slice, and the empty input
issues no calls. -/
theorem Embed_length_and_empty_witness :
    ((Embed (fun _ => some ([] : List (Nat × Nat))) ["x"] =
        some ([none], [["x"]]) →
      ∀ w calls, Embed (fun _ => some ([] : List (Nat × Nat))) ["x"] =
          some (w, calls) → w.length = (["x"] : List String).length)
     ∧ Embed (fun _ => some ([] : List (Nat × Nat))) ([] : List String) =
        some ([], [])) :=
  ⟨fun _ => (Embed_length_and_empty (fun _ => some []) ["x"]).1,
   (Embed_length_and_empty (fun _ => some []) ([] : List String)).2⟩

/-! ## Store adapter (`internal/surrealdb` client)

SurrealDB state is modelled as a partial map from record id to record.
Every schema field of the `repo` table is optional on the record (absent =
SurrealDB `NONE`), because records are built up incrementally by
`UPSERT ... MERGE` and `UPDATE ... SET` statements. -/

/-- One stored `repo`-table record. -/
structure StoredRepo where
  owner : Option String := none
  name : Option String := none
  full_name : Option String := none
  description : Option String := none
  url : Option String := none
  homepage_url : Option String := none
  stars : Option Int := none
  language : Option String := none
  topics : Option (List String) := none
  readme_excerpt : Option String := none
  ai_summary : Option String := none
  ai_categories : Option (List String) := none
  embedding : Option (List Int) := none
  fetched_at : Option Nat := none
  enriched_at : Option Nat := none
deriving Repr, DecidableEq

/-- The `repo` table, keyed by record id (`type::thing("repo", $id)`). -/
def Store : Type := String → Option StoredRepo

/-- A store with no records. -/
def emptyStore : Store := fun _ => none

/-- The record a MERGE creates when the id is not yet present. -/
def emptyStored : StoredRepo := {}

/-- `strings.ReplaceAll(fullName, "/", "__")`, character by character (the
pattern is the single character `/`, so per-character replacement is
exact). -/
def replaceSlash : List Char → List Char
  | [] => []
  | c :: rest =>
    if c = '/' then '_' :: '_' :: replaceSlash rest
    else c :: replaceSlash rest

/-- The record id `Client.UpsertRepo` derives from the full name. -/
def recordId (fullName : String) : String := ⟨replaceSlash fullName.data⟩

/-- The `$data` map of `Client.UpsertRepo` merged over an existing record:
mandatory fields (`owner`, `name`, `full_name`, `url`, `stars`,
`fetched_at`) are always present and overwrite; optional fields are put in
the map only when the Go pointer is non-nil, so an absent optional field
keeps the stored value; `topics` is normalised (nil slice becomes the
empty list, which the plain Lean list already is) and always written.
Fields never in the map (`ai_summary`, `ai_categories`, `embedding`,
`enriched_at`) keep the stored value. -/
def mergeData (now : Nat) (r : Repo) (s : StoredRepo) : StoredRepo :=
  { s with
    owner := some r.owner
    name := some r.name
    full_name := some r.fullName
    url := some r.url
    stars := some r.stars
    fetched_at := some now
    topics := some r.topics
    description := if r.description.isSome then r.description else s.description
    homepage_url := if r.homepageURL.isSome then r.homepageURL else s.homepage_url
    language := if r.language.isSome then r.language else s.language
    readme_excerpt :=
      if r.readmeExcerpt.isSome then r.readmeExcerpt else s.readme_excerpt }

/-- `Client.UpsertRepo`: `UPSERT type::thing("repo", $id) MERGE $data` —
creates the record when absent (MERGE into the empty record) and merges
into the existing record otherwise; `now` is `time.Now().UTC()`. -/
def UpsertRepo (now : Nat) (s : Store) (r : Repo) : Store :=
  fun k =>
    if k = recordId r.fullName then
      some (mergeData now r ((s (recordId r.fullName)).getD emptyStored))
    else s k

/-- C4: an upsert overwrites only fields carrying a present value: every
absent optional field keeps its previously stored value, present optional
fields overwrite, and the enrichment fields (`ai_summary`,
`ai_categories`, `embedding`, `enriched_at`), which the upsert's data map
never contains, are always left untouched — so re-upserting a fetched item
never erases previously written enrichment data.  Records under other keys
are not modified at all. -/
theorem UpsertRepo_merge_not_overwrite (s : Store) (r : Repo) (now : Nat) :
    ∃ rec, UpsertRepo now s r (recordId r.fullName) = some rec
      ∧ rec.ai_summary = ((s (recordId r.fullName)).getD emptyStored).ai_summary
      ∧ rec.ai_categories = ((s (recordId r.fullName)).getD emptyStored).ai_categories
      ∧ rec.embedding = ((s (recordId r.fullName)).getD emptyStored).embedding
      ∧ rec.enriched_at = ((s (recordId r.fullName)).getD emptyStored).enriched_at
      ∧ (r.description = none →
          rec.description = ((s (recordId r.fullName)).getD emptyStored).description)
      ∧ (r.homepageURL = none →
          rec.homepage_url = ((s (recordId r.fullName)).getD emptyStored).homepage_url)
      ∧ (r.language = none →
          rec.language = ((s (recordId r.fullName)).getD emptyStored).language)
      ∧ (r.readmeExcerpt = none →
          rec.readme_excerpt = ((s (recordId r.fullName)).getD emptyStored).readme_excerpt)
      ∧ (∀ d, r.description = some d → rec.description = some d)
      ∧ (∀ u, r.homepageURL = some u → rec.homepage_url = some u)
      ∧ (∀ g, r.language = some g → rec.language = some g)
      ∧ (∀ e, r.readmeExcerpt = some e → rec.readme_excerpt = some e)
      ∧ (∀ k, k ≠ recordId r.fullName → UpsertRepo now s r k = s k) := by
  refine ⟨mergeData now r ((s (recordId r.fullName)).getD emptyStored),
    by simp [UpsertRepo], rfl, rfl, rfl, rfl, ?_, ?_, ?_, ?_, ?_, ?_, ?_, ?_, ?_⟩
  · intro h
    simp [mergeData, h]
  · intro h
    simp [mergeData, h]
  · intro h
    simp [mergeData, h]
  · intro h
    simp [mergeData, h]
  · intro d h
    simp [mergeData, h]
  · intro u h
    simp [mergeData, h]
  · intro g h
    simp [mergeData, h]
  · intro e h
    simp [mergeData, h]
  · intro k hk
    simp [UpsertRepo, hk]

/-- Witness for C4 at a concrete input: a second upsert with absent
description does not erase the stored description or enrichment data. -/
theorem UpsertRepo_merge_not_overwrite_witness :
    ∃ rec,
      UpsertRepo 1
        (UpsertRepo 0 emptyStore
          { owner := "o", name := "n", fullName := "o/n",
            description := some "d" })
        { owner := "o", name := "n", fullName := "o/n" }
        (recordId "o/n") = some rec
      ∧ rec.ai_summary = ((UpsertRepo 0 emptyStore
          { owner := "o", name := "n", fullName := "o/n",
            description := some "d" } (recordId "o/n")).getD emptyStored).ai_summary
      ∧ (({ owner := "o", name := "n", fullName := "o/n" } : Repo).description = none →
          rec.description = ((UpsertRepo 0 emptyStore
            { owner := "o", name := "n", fullName := "o/n",
              description := some "d" } (recordId "o/n")).getD
              emptyStored).description) := by
  obtain ⟨rec, h1, h2, -, -, -, h3, -⟩ :=
    UpsertRepo_merge_not_overwrite
      (UpsertRepo 0 emptyStore
        { owner := "o", name := "n", fullName := "o/n", description := some "d" })
      { owner := "o", name := "n", fullName := "o/n" } 1
  exact ⟨rec, h1, h2, h3⟩

/-- C7: `UpsertRepo` twice with the same item equals one upsert (with the
second call's timestamp): a single stored record results, no duplication
and no order dependency, its fields being the second call's non-absent
fields merged over the first's; every other key is untouched. -/
theorem UpsertRepo_idempotent (s : Store) (r : Repo) (n1 n2 : Nat) :
    UpsertRepo n2 (UpsertRepo n1 s r) r = UpsertRepo n2 s r
    ∧ (∀ k, k ≠ recordId r.fullName →
        UpsertRepo n2 (UpsertRepo n1 s r) r k = s k) := by
  constructor
  · funext k
    by_cases hk : k = recordId r.fullName
    · subst hk
      simp only [UpsertRepo, if_pos rfl, Option.getD_some]
      cases hd : r.description <;> cases hh : r.homepageURL <;>
        cases hl : r.language <;> cases he : r.readmeExcerpt <;>
          simp [mergeData, hd, hh, hl, he]
    · simp [UpsertRepo, hk]
  · intro k hk
    simp [UpsertRepo, hk]

/-- Witness for C7 at a concrete input. -/
theorem UpsertRepo_idempotent_witness :
    (UpsertRepo 1
        (UpsertRepo 0 emptyStore
          { owner := "o", name := "n", fullName := "o/n" })
        { owner := "o", name := "n", fullName := "o/n" } =
      UpsertRepo 1 emptyStore { owner := "o", name := "n", fullName := "o/n" })
    ∧ UpsertRepo 1
        (UpsertRepo 0 emptyStore
          { owner := "o", name := "n", fullName := "o/n" })
        { owner := "o", name := "n", fullName := "o/n" } "other" = emptyStore "other" := by
  have h := UpsertRepo_idempotent emptyStore
    { owner := "o", name := "n", fullName := "o/n" } 0 1
  exact ⟨h.1, h.2 "other" (by decide)⟩

/-- C9 counterexample: the record identity derived from the full name is
not injective.  The full names `"a_/b"` and `"a/_b"` are distinct, yet both
map to the record id `"a___b"` — so two items with these distinct full
names are upserted into the same store record, not two distinct ones.
(Both are of the `owner/name` shape the code produces; nothing in the
repository forbids `_` in the segments.) -/
theorem recordId_not_injective :
    "a_/b" ≠ "a/_b"
    ∧ recordId "a_/b" = recordId "a/_b"
    ∧ recordId "a_/b" = "a___b" := by
  refine ⟨by decide, ?_, ?_⟩ <;> rfl

/-- C9 amended: the full name is the upsert identity key in the following
sense — equal full names always map to the same record id, and for full
names containing no underscore the record id map is injective, so distinct
underscore-free full names are upserted into distinct store records. -/
theorem recordId_injective_no_underscore :
    (∀ fn1 fn2 : String,
        (fn1.data.all (fun c => c ≠ '_')) = true →
        (fn2.data.all (fun c => c ≠ '_')) = true →
        recordId fn1 = recordId fn2 → fn1 = fn2)
    ∧ (∀ fn1 fn2 : String, fn1 = fn2 → recordId fn1 = recordId fn2) := by
  have key : ∀ (xs ys : List Char),
      (∀ c ∈ xs, c ≠ '_') → (∀ c ∈ ys, c ≠ '_') →
      replaceSlash xs = replaceSlash ys → xs = ys := by
    intro xs
    induction xs with
    | nil =>
      intro ys _ hy h
      cases ys with
      | nil => rfl
      | cons d ds =>
        exfalso
        rw [replaceSlash, replaceSlash] at h
        by_cases hd : d = '/' <;> simp [hd] at h
    | cons c cs ih =>
      intro ys hx hy h
      cases ys with
      | nil =>
        exfalso
        rw [replaceSlash, replaceSlash] at h
        by_cases hc : c = '/' <;> simp [hc] at h
      | cons d ds =>
        have hcu : c ≠ '_' := hx c (List.mem_cons_self c cs)
        have hdu : d ≠ '_' := hy d (List.mem_cons_self d ds)
        have hxs : ∀ x ∈ cs, x ≠ '_' := fun x hm => hx x (List.mem_cons_of_mem c hm)
        have hys : ∀ x ∈ ds, x ≠ '_' := fun x hm => hy x (List.mem_cons_of_mem d hm)
        rw [replaceSlash, replaceSlash] at h
        by_cases hc : c = '/'
        · by_cases hd : d = '/'
          · rw [if_pos hc, if_pos hd] at h
            have htl : replaceSlash cs = replaceSlash ds := by
              injection h with _ h1
              injection h1 with _ h2
            rw [hc, hd, ih ds hxs hys htl]
          · rw [if_pos hc, if_neg hd] at h
            injection h with h1 _
            exact absurd h1.symm hdu
        · by_cases hd : d = '/'
          · rw [if_neg hc, if_pos hd] at h
            injection h with h1 _
            exact absurd h1 hcu
          · rw [if_neg hc, if_neg hd] at h
            injection h with h1 h2
            rw [h1, ih ds hxs hys h2]
  constructor
  · intro fn1 fn2 h1 h2 h
    have hd1 : ∀ c ∈ fn1.data, c ≠ '_' := by
      intro c hc
      have := List.all_eq_true.mp h1 c hc
      simpa using this
    have hd2 : ∀ c ∈ fn2.data, c ≠ '_' := by
      intro c hc
      have := List.all_eq_true.mp h2 c hc
      simpa using this
    have hdata : replaceSlash fn1.data = replaceSlash fn2.data :=
      congrArg String.data h
    exact String.ext (key fn1.data fn2.data hd1 hd2 hdata)
  · intro fn1 fn2 h
    rw [h]

/-- Witness for the amended C9 at concrete inputs: underscore-free distinct
full names get distinct record ids, equal names the same id. -/
theorem recordId_injective_no_underscore_witness :
    (("a/b".data.all (fun c => c ≠ '_')) = true)
    ∧ (("a/c".data.all (fun c => c ≠ '_')) = true)
    ∧ (recordId "a/b" = recordId "a/c" → "a/b" = "a/c")
    ∧ recordId "a/b" = recordId "a/b" :=
  ⟨by decide, by decide,
   recordId_injective_no_underscore.1 "a/b" "a/c" (by decide) (by decide),
   recordId_injective_no_underscore.2 "a/b" "a/b" rfl⟩

/-! ## Search-request validation and the field allow-list

`internal/surrealdb` exposes the allow-list (`allowedFields`,
`IsAllowedField`) and `Client.VectorSearch`, which interpolates the
requested field and sort names into the query string.  The only
search-request path in the repository is the `search` command of
`cmd/star-watch`, whose `parseFields` / `parseSort` run the allow-list
validation before `VectorSearch` is called, aborting on the first unknown
name.  The Go string helpers `strings.Split`, `strings.TrimSpace`,
`strings.Fields` and `strings.ToLower` are modelled character-wise. -/

/-- `strings.Split(s, ",")` — comma is a single character, so the generic
split specialises to a per-character scan.  Always returns at least one
(possibly empty) piece, like the Go function. -/
def splitComma : List Char → List (List Char)
  | [] => [[]]
  | c :: rest =>
    if c = ',' then [] :: splitComma rest
    else
      match splitComma rest with
      | [] => [[c]]
      | p :: ps => (c :: p) :: ps

/-- `strings.TrimSpace`: drop whitespace from both ends. -/
def trimChars (l : List Char) : List Char :=
  ((l.dropWhile Char.isWhitespace).reverse.dropWhile Char.isWhitespace).reverse

/-- Accumulator pass of `strings.Fields` (split on whitespace runs,
dropping empty pieces); `acc` holds the current word reversed. -/
def fieldsAux : List Char → List Char → List (List Char)
  | acc, [] => if acc.isEmpty then [] else [acc.reverse]
  | acc, c :: rest =>
    if c.isWhitespace then
      if acc.isEmpty then fieldsAux [] rest
      else acc.reverse :: fieldsAux [] rest
    else fieldsAux (c :: acc) rest

/-- `strings.Split(raw, ",")` on strings. -/
def splitCommaS (raw : String) : List String :=
  (splitComma raw.data).map (fun l => ⟨l⟩)

/-- `strings.TrimSpace` on strings. -/
def trimS (s : String) : String := ⟨trimChars s.data⟩

/-- `strings.Fields` on strings. -/
def fieldsS (s : String) : List String :=
  (fieldsAux [] s.data).map (fun l => ⟨l⟩)

/-- `strings.ToLower` on strings (ASCII case folding suffices for the
compared literals `asc` / `desc`). -/
def toLowerS (s : String) : String := ⟨s.data.map Char.toLower⟩

/-- The fixed allow-list (`allowedFields` of `internal/surrealdb`): every
field name that may appear in a dynamic query. -/
def allowedFields : List String :=
  ["owner", "name", "full_name", "description", "url", "homepage_url",
   "stars", "language", "topics", "readme_excerpt", "ai_summary",
   "ai_categories", "fetched_at", "enriched_at", "score"]

/-- `IsAllowedField` reports whether `f` is a valid search field name. -/
def IsAllowedField (f : String) : Bool := allowedFields.contains f

/-- A single ORDER BY clause (`SortSpec`). -/
structure SortSpec where
  field : String
  desc : Bool
deriving Repr, DecidableEq

/-- The validation loop of `parseFields` over the comma-separated pieces:
blank pieces are skipped, the first unknown field aborts with a hard
error, and accepted fields are kept in order. -/
def parseFieldsList : List String → Except String (List String)
  | [] => .ok []
  | part :: rest =>
    if trimS part = "" then parseFieldsList rest
    else if !(IsAllowedField (trimS part)) then
      .error ("unknown field " ++ trimS part)
    else
      match parseFieldsList rest with
      | .error e => .error e
      | .ok fs => .ok (trimS part :: fs)

/-- `parseFields` of `cmd/star-watch`: validates a comma-separated field
list against the allow-list; an empty field list is itself an error. -/
def parseFields (raw : String) : Except String (List String) :=
  match parseFieldsList (splitCommaS raw) with
  | .error e => .error e
  | .ok [] => .error "no fields specified"
  | .ok fs => .ok fs

/-- The validation loop of `parseSort`: blank pieces are skipped, the first
token of a piece must be an allowed field, an optional second token must be
`asc` or `desc` (case-insensitive), and later tokens are ignored, exactly
as in the Go loop.  (The empty-token case cannot occur for a non-blank
trimmed piece; the Go code indexes `tokens[0]` unconditionally.) -/
def parseSortList : List String → Except String (List SortSpec)
  | [] => .ok []
  | part :: rest =>
    if trimS part = "" then parseSortList rest
    else
      match fieldsS (trimS part) with
      | [] => .error "no sort tokens"
      | field :: tokens =>
        if !(IsAllowedField field) then
          .error ("unknown sort field " ++ field)
        else
          match tokens with
          | [] =>
            (parseSortList rest).map
              (fun specs => { field := field, desc := false } :: specs)
          | dir :: _ =>
            if toLowerS dir = "desc" then
              (parseSortList rest).map
                (fun specs => { field := field, desc := true } :: specs)
            else if toLowerS dir = "asc" then
              (parseSortList rest).map
                (fun specs => { field := field, desc := false } :: specs)
            else .error ("invalid sort direction " ++ dir)

/-- `parseSort` of `cmd/star-watch`. -/
def parseSort (raw : String) : Except String (List SortSpec) :=
  parseSortList (splitCommaS raw)

/-- `Client.VectorSearch` SELECT-clause parts: the computed score first,
then the requested fields, skipping `score` which is already included. -/
def selectParts (fields : List String) : List String :=
  "vector::similarity::cosine(embedding, $query_vec) AS score" ::
    fields.filter (fun f => f ≠ "score")

/-- `Client.VectorSearch` ORDER BY parts; an empty sort list defaults to
score descending. -/
def orderParts (sort : List SortSpec) : List String :=
  (if sort.isEmpty then [{ field := "score", desc := true }] else sort).map
    (fun s => s.field ++ " " ++ (if s.desc then "DESC" else "ASC"))

/-- The query string `Client.VectorSearch` interpolates the requested field
names into. -/
def buildSearchQuery (k : Int) (fields : List String) (sort : List SortSpec) :
    String :=
  "SELECT " ++ String.intercalate ", " (selectParts fields) ++
    " FROM repo WHERE embedding IS NOT NONE ORDER BY " ++
    String.intercalate ", " (orderParts sort) ++
    " LIMIT " ++ toString k

/-- The `search` command flow up to query construction: `parseFields`,
then `parseSort`; only when both succeed is the query string built and the
store queried.  (The query-text embedding and the store call sit between
validation and the query and are irrelevant to validation.) -/
def searchCommand (fieldsRaw sortRaw : String) (k : Int) : Except String String :=
  match parseFields fieldsRaw with
  | .error e => .error e
  | .ok fields =>
    match parseSort sortRaw with
    | .error e => .error e
    | .ok specs => .ok (buildSearchQuery k fields specs)

/-- One sort piece is acceptable to `parseSort`: blank, or its first token
an allowed field with a valid (or absent) direction token. -/
def sortPartOk (part : String) : Bool :=
  trimS part = "" ||
    (match fieldsS (trimS part) with
     | [] => false
     | field :: tokens =>
       IsAllowedField field &&
         (match tokens with
          | [] => true
          | dir :: _ => toLowerS dir = "desc" || toLowerS dir = "asc"))

/-- One sort piece names an unrecognized field: it is non-blank and its
first token fails the allow-list check. -/
def sortPartBadField (part : String) : Bool :=
  (trimS part != "") &&
    (match fieldsS (trimS part) with
     | [] => false
     | field :: _ => !IsAllowedField field)

/-- A successful `parseFields` loop yields only allow-listed names. -/
theorem parseFieldsList_allowed :
    ∀ (parts fields : List String), parseFieldsList parts = .ok fields →
      ∀ f ∈ fields, IsAllowedField f = true := by
  intro parts
  induction parts with
  | nil =>
    intro fields h f hf
    rw [parseFieldsList] at h
    cases h
    exact absurd hf (List.not_mem_nil f)
  | cons part rest ih =>
    intro fields h f hf
    rw [parseFieldsList] at h
    by_cases hb : trimS part = ""
    · rw [if_pos hb] at h
      exact ih fields h f hf
    · rw [if_neg hb] at h
      cases ha : IsAllowedField (trimS part) with
      | false => rw [ha] at h; exact absurd h (by simp)
      | true =>
        rw [ha] at h
        simp only [Bool.not_true, Bool.false_eq_true, if_false] at h
        cases hr : parseFieldsList rest with
        | error e => rw [hr] at h; exact absurd h (by simp)
        | ok fs =>
          rw [hr] at h
          have hfs : trimS part :: fs = fields := by
            simpa using h
          rw [← hfs] at hf
          rcases List.mem_cons.mp hf with h1 | h2
          · rw [h1]; exact ha
          · exact ih fs hr f h2

/-- A successful `parseSort` loop yields only allow-listed sort fields. -/
theorem parseSortList_allowed :
    ∀ (parts : List String) (specs : List SortSpec),
      parseSortList parts = .ok specs →
      ∀ s ∈ specs, IsAllowedField s.field = true := by
  intro parts
  induction parts with
  | nil =>
    intro specs h s hs
    rw [parseSortList] at h
    cases h
    exact absurd hs (List.not_mem_nil s)
  | cons part rest ih =>
    intro specs h s hs
    rw [parseSortList] at h
    by_cases hb : trimS part = ""
    · rw [if_pos hb] at h
      exact ih specs h s hs
    · rw [if_neg hb] at h
      cases htok : fieldsS (trimS part) with
      | nil => rw [htok] at h; exact absurd h (by simp)
      | cons field tokens =>
        rw [htok] at h
        simp only [] at h
        cases ha : IsAllowedField field with
        | false => rw [ha] at h; exact absurd h (by simp)
        | true =>
          rw [ha] at h
          simp only [Bool.not_true, Bool.false_eq_true, if_false] at h
          have hcons : ∀ (d : Bool),
              (parseSortList rest).map
                (fun sp => ({ field := field, desc := d } : SortSpec) :: sp) =
                  .ok specs →
              ∀ s ∈ specs, IsAllowedField s.field = true := by
            intro d hmap s' hs'
            cases hr : parseSortList rest with
            | error e => rw [hr] at hmap; exact absurd hmap (by simp [Except.map])
            | ok sp =>
              rw [hr] at hmap
              have : ({ field := field, desc := d } : SortSpec) :: sp = specs := by
                simpa [Except.map] using hmap
              rw [← this] at hs'
              rcases List.mem_cons.mp hs' with h1 | h2
              · rw [h1]; exact ha
              · exact ih sp hr s' h2
          cases tokens with
          | nil => exact hcons false h s hs
          | cons dir more =>
            simp only [] at h
            by_cases hdesc : toLowerS dir = "desc"
            · rw [if_pos hdesc] at h
              exact hcons true h s hs
            · rw [if_neg hdesc] at h
              by_cases hasc : toLowerS dir = "asc"
              · rw [if_pos hasc] at h
                exact hcons false h s hs
              · rw [if_neg hasc] at h
                exact absurd h (by simp)

/-- A field list containing an unknown non-blank name makes the
`parseFields` loop fail. -/
theorem parseFieldsList_rejects :
    ∀ (parts : List String),
      (∃ part ∈ parts, trimS part ≠ "" ∧ IsAllowedField (trimS part) = false) →
      ∃ e, parseFieldsList parts = .error e := by
  intro parts
  induction parts with
  | nil =>
    intro h
    obtain ⟨part, hm, -⟩ := h
    exact absurd hm (List.not_mem_nil part)
  | cons part rest ih =>
    intro h
    by_cases hb : trimS part = ""
    · obtain ⟨p, hm, hp1, hp2⟩ := h
      have hpr : p ∈ rest := by
        rcases List.mem_cons.mp hm with h1 | h2
        · exact absurd (h1 ▸ hb) hp1
        · exact h2
      obtain ⟨e, he⟩ := ih ⟨p, hpr, hp1, hp2⟩
      exact ⟨e, by rw [parseFieldsList, if_pos hb]; exact he⟩
    · cases ha : IsAllowedField (trimS part) with
      | false =>
        refine ⟨"unknown field " ++ trimS part, ?_⟩
        rw [parseFieldsList, if_neg hb, ha]
        rfl
      | true =>
        obtain ⟨p, hm, hp1, hp2⟩ := h
        have hpr : p ∈ rest := by
          rcases List.mem_cons.mp hm with h1 | h2
          · rw [h1] at hp2; rw [hp2] at ha; exact absurd ha (by simp)
          · exact h2
        obtain ⟨e, he⟩ := ih ⟨p, hpr, hp1, hp2⟩
        refine ⟨e, ?_⟩
        rw [parseFieldsList, if_neg hb, ha]
        simp only [Bool.not_true, Bool.false_eq_true, if_false]
        rw [he]

/-- A sort list containing a piece that names an unrecognized field makes
the `parseSort` loop fail (with that piece's error or an earlier one). -/
theorem parseSortList_rejects :
    ∀ (parts : List String),
      (∃ part ∈ parts, sortPartBadField part = true) →
      ∃ e, parseSortList parts = .error e := by
  intro parts
  induction parts with
  | nil =>
    intro h
    obtain ⟨part, hm, -⟩ := h
    exact absurd hm (List.not_mem_nil part)
  | cons part rest ih =>
    intro h
    by_cases hb : trimS part = ""
    · obtain ⟨p, hm, hp⟩ := h
      have hpr : p ∈ rest := by
        rcases List.mem_cons.mp hm with h1 | h2
        · exfalso
          rw [h1, sortPartBadField, hb] at hp
          exact absurd hp (by simp)
        · exact h2
      obtain ⟨e, he⟩ := ih ⟨p, hpr, hp⟩
      exact ⟨e, by rw [parseSortList, if_pos hb]; exact he⟩
    · cases htok : fieldsS (trimS part) with
      | nil =>
        refine ⟨"no sort tokens", ?_⟩
        rw [parseSortList, if_neg hb, htok]
      | cons field tokens =>
        cases ha : IsAllowedField field with
        | false =>
          refine ⟨"unknown sort field " ++ field, ?_⟩
          rw [parseSortList, if_neg hb, htok]
          simp only []
          rw [ha]
          rfl
        | true =>
          obtain ⟨p, hm, hp⟩ := h
          have hpr : p ∈ rest := by
            rcases List.mem_cons.mp hm with h1 | h2
            · exfalso
              rw [h1, sortPartBadField, htok] at hp
              simp [ha] at hp
            · exact h2
          obtain ⟨e, he⟩ := ih ⟨p, hpr, hp⟩
          cases tokens with
          | nil =>
            refine ⟨e, ?_⟩
            rw [parseSortList, if_neg hb, htok]
            simp only []
            rw [ha]
            simp only [Bool.not_true, Bool.false_eq_true, if_false]
            rw [he]
            rfl
          | cons dir more =>
            by_cases hdesc : toLowerS dir = "desc"
            · refine ⟨e, ?_⟩
              rw [parseSortList, if_neg hb, htok]
              simp only []
              rw [ha]
              simp only [Bool.not_true, Bool.false_eq_true, if_false]
              rw [if_pos hdesc, he]
              rfl
            · by_cases hasc : toLowerS dir = "asc"
              · refine ⟨e, ?_⟩
                rw [parseSortList, if_neg hb, htok]
                simp only []
                rw [ha]
                simp only [Bool.not_true, Bool.false_eq_true, if_false]
                rw [if_neg hdesc, if_pos hasc, he]
                rfl
              · refine ⟨"invalid sort direction " ++ dir, ?_⟩
                rw [parseSortList, if_neg hb, htok]
                simp only []
                rw [ha]
                simp only [Bool.not_true, Bool.false_eq_true, if_false]
                rw [if_neg hdesc, if_neg hasc]

/-- A field list whose non-blank entries are all allowed parses, and the
result is non-empty whenever some entry is non-blank. -/
theorem parseFieldsList_accepts :
    ∀ (parts : List String),
      (∀ part ∈ parts, trimS part = "" ∨ IsAllowedField (trimS part) = true) →
      ∃ fs, parseFieldsList parts = .ok fs
        ∧ ((∃ part ∈ parts, trimS part ≠ "") → fs ≠ []) := by
  intro parts
  induction parts with
  | nil =>
    intro _
    refine ⟨[], rfl, ?_⟩
    intro h
    obtain ⟨p, hm, -⟩ := h
    exact absurd hm (List.not_mem_nil p)
  | cons part rest ih =>
    intro h
    obtain ⟨fs, hfs, hne⟩ := ih (fun p hp => h p (List.mem_cons_of_mem part hp))
    by_cases hb : trimS part = ""
    · refine ⟨fs, by rw [parseFieldsList, if_pos hb]; exact hfs, ?_⟩
      intro hex
      obtain ⟨p, hm, hp⟩ := hex
      rcases List.mem_cons.mp hm with h1 | h2
      · exact absurd (h1 ▸ hb) hp
      · exact hne ⟨p, h2, hp⟩
    · have ha : IsAllowedField (trimS part) = true := by
        rcases h part (List.mem_cons_self part rest) with h1 | h2
        · exact absurd h1 hb
        · exact h2
      refine ⟨trimS part :: fs, ?_, by simp⟩
      rw [parseFieldsList, if_neg hb, ha]
      simp only [Bool.not_true, Bool.false_eq_true, if_false]
      rw [hfs]

/-- A sort list whose entries all satisfy `sortPartOk` parses. -/
theorem parseSortList_accepts :
    ∀ (parts : List String),
      (∀ part ∈ parts, sortPartOk part = true) →
      ∃ specs, parseSortList parts = .ok specs := by
  intro parts
  induction parts with
  | nil => intro _; exact ⟨[], rfl⟩
  | cons part rest ih =>
    intro h
    obtain ⟨specs, hspecs⟩ := ih (fun p hp => h p (List.mem_cons_of_mem part hp))
    have hpart := h part (List.mem_cons_self part rest)
    by_cases hb : trimS part = ""
    · exact ⟨specs, by rw [parseSortList, if_pos hb]; exact hspecs⟩
    · rw [sortPartOk] at hpart
      rw [Bool.or_eq_true] at hpart
      rcases hpart with h1 | h2
      · exact absurd (by simpa using h1) hb
      · cases htok : fieldsS (trimS part) with
        | nil => rw [htok] at h2; exact absurd h2 (by simp)
        | cons field tokens =>
          rw [htok] at h2
          rw [Bool.and_eq_true] at h2
          obtain ⟨ha, hdir⟩ := h2
          cases tokens with
          | nil =>
            refine ⟨{ field := field, desc := false } :: specs, ?_⟩
            rw [parseSortList, if_neg hb, htok]
            simp only []
            rw [ha]
            simp only [Bool.not_true, Bool.false_eq_true, if_false]
            rw [hspecs]
            rfl
          | cons dir more =>
            rw [Bool.or_eq_true] at hdir
            by_cases hdesc : toLowerS dir = "desc"
            · refine ⟨{ field := field, desc := true } :: specs, ?_⟩
              rw [parseSortList, if_neg hb, htok]
              simp only []
              rw [ha]
              simp only [Bool.not_true, Bool.false_eq_true, if_false]
              rw [if_pos hdesc, hspecs]
              rfl
            · have hasc : toLowerS dir = "asc" := by
                rcases hdir with hd | hd
                · exact absurd (by simpa using hd) hdesc
                · simpa using hd
              refine ⟨{ field := field, desc := false } :: specs, ?_⟩
              rw [parseSortList, if_neg hb, htok]
              simp only []
              rw [ha]
              simp only [Bool.not_true, Bool.false_eq_true, if_false]
              rw [if_neg hdesc, if_pos hasc, hspecs]
              rfl

/-- C3: every field name in both the result-field list and the sort-clause
list of a search request is validated against the fixed allow-list before
being interpolated into any query string: (1, 2) a successful parse
contains only allow-listed names, so `VectorSearch`'s query construction
only ever sees validated names; (3) a request naming an unrecognized field
in the result-field list is rejected with a hard input-validation error
and no query string is produced; (4) likewise for an unrecognized field in
the sort-clause list — never silently dropped; (5) a request naming only
allowed fields (and valid sort directions) succeeds. -/
theorem searchRequest_allowlist :
    (∀ raw fields, parseFields raw = .ok fields →
        ∀ f ∈ fields, IsAllowedField f = true)
    ∧ (∀ raw specs, parseSort raw = .ok specs →
        ∀ s ∈ specs, IsAllowedField s.field = true)
    ∧ (∀ fieldsRaw sortRaw : String, ∀ k : Int,
        (∃ part ∈ splitCommaS fieldsRaw, trimS part ≠ "" ∧
            IsAllowedField (trimS part) = false) →
        ∃ e, searchCommand fieldsRaw sortRaw k = .error e)
    ∧ (∀ fieldsRaw sortRaw : String, ∀ k : Int,
        (∃ part ∈ splitCommaS sortRaw, sortPartBadField part = true) →
        ∃ e, searchCommand fieldsRaw sortRaw k = .error e)
    ∧ (∀ fieldsRaw sortRaw : String, ∀ k : Int,
        (∀ part ∈ splitCommaS fieldsRaw,
            trimS part = "" ∨ IsAllowedField (trimS part) = true) →
        (∃ part ∈ splitCommaS fieldsRaw, trimS part ≠ "") →
        (∀ part ∈ splitCommaS sortRaw, sortPartOk part = true) →
        ∃ q, searchCommand fieldsRaw sortRaw k = .ok q) := by
  refine ⟨?_, ?_, ?_, ?_, ?_⟩
  · intro raw fields h
    rw [parseFields] at h
    cases hr : parseFieldsList (splitCommaS raw) with
    | error e => rw [hr] at h; exact absurd h (by simp)
    | ok fs =>
      rw [hr] at h
      cases fs with
      | nil => exact absurd h (by simp)
      | cons a as =>
        have hv : a :: as = fields := by simpa using h
        rw [← hv]
        exact parseFieldsList_allowed _ _ hr
  · intro raw specs h
    exact parseSortList_allowed _ _ h
  · intro fieldsRaw sortRaw k hbad
    obtain ⟨e, he⟩ := parseFieldsList_rejects _ hbad
    have hpf : parseFields fieldsRaw = .error e := by
      rw [parseFields, he]
    refine ⟨e, ?_⟩
    rw [searchCommand, hpf]
  · intro fieldsRaw sortRaw k hbad
    cases hpf : parseFields fieldsRaw with
    | error e => exact ⟨e, by rw [searchCommand, hpf]⟩
    | ok fs =>
      obtain ⟨e, he⟩ := parseSortList_rejects _ hbad
      have hps : parseSort sortRaw = .error e := by
        rw [parseSort, he]
      exact ⟨e, by rw [searchCommand, hpf, hps]⟩
  · intro fieldsRaw sortRaw k hgood hnb hsort
    obtain ⟨fs, hfs, hne⟩ := parseFieldsList_accepts _ hgood
    obtain ⟨specs, hspecs⟩ := parseSortList_accepts _ hsort
    have hfs' : parseFields fieldsRaw = .ok fs := by
      rw [parseFields, hfs]
      cases fs with
      | nil => exact absurd rfl (hne hnb)
      | cons a as => rfl
    have hsp : parseSort sortRaw = .ok specs := by
      rw [parseSort, hspecs]
    refine ⟨buildSearchQuery k fs specs, ?_⟩
    rw [searchCommand, hfs', hsp]

/-- Witness for C3 at concrete requests: the result-field list
`full_name,bogus` and the sort list `score, bogus desc` are each rejected
before any query exists, while `full_name, score` sorted by `stars desc`
yields a query. -/
theorem searchRequest_allowlist_witness :
    (∃ part ∈ splitCommaS "full_name,bogus", trimS part ≠ "" ∧
        IsAllowedField (trimS part) = false)
    ∧ (∃ e, searchCommand "full_name,bogus" "score desc" 10 = .error e)
    ∧ (∃ part ∈ splitCommaS "score, bogus desc", sortPartBadField part = true)
    ∧ (∃ e, searchCommand "full_name" "score, bogus desc" 10 = .error e)
    ∧ (∀ part ∈ splitCommaS "full_name, score",
        trimS part = "" ∨ IsAllowedField (trimS part) = true)
    ∧ (∃ part ∈ splitCommaS "full_name, score", trimS part ≠ "")
    ∧ (∀ part ∈ splitCommaS "stars desc", sortPartOk part = true)
    ∧ (∃ q, searchCommand "full_name, score" "stars desc" 10 = .ok q) := by
  have h1 : ∃ part ∈ splitCommaS "full_name,bogus", trimS part ≠ "" ∧
      IsAllowedField (trimS part) = false := by decide
  have h1s : ∃ part ∈ splitCommaS "score, bogus desc",
      sortPartBadField part = true := by decide
  have h2 : ∀ part ∈ splitCommaS "full_name, score",
      trimS part = "" ∨ IsAllowedField (trimS part) = true := by decide
  have h3 : ∃ part ∈ splitCommaS "full_name, score", trimS part ≠ "" := by decide
  have h4 : ∀ part ∈ splitCommaS "stars desc", sortPartOk part = true := by decide
  exact ⟨h1, searchRequest_allowlist.2.2.1 _ "score desc" 10 h1,
    h1s, searchRequest_allowlist.2.2.2.1 "full_name" _ 10 h1s,
    h2, h3, h4, searchRequest_allowlist.2.2.2.2 _ _ 10 h2 h3 h4⟩

/-! ## Enrichment Scheduler (`internal/pipeline/pipeline.go`, step 4 of `Run`)

The Go code fans the per-item tasks out over an errgroup with limit 5.
Every task returns `nil` in all branches: a Summarizer failure or an
enrichment-write failure is printed as a warning and swallowed; a success
writes via `UpdateEnrichment` and bumps the shared atomic counter.  Tasks
for different items touch records with different `full_name` values and
the counter is atomic, so the final store state and counter are those of a
sequential fold; the third component models the errgroup `Wait` result
(the first non-nil task error — `none` by construction, since tasks never
return an error).  Context cancellation, the one way the stage can report
an error, is outside this model: the theorems describe the uncancelled
run. -/

/-- `models.SummaryResult`. -/
structure SummaryResult where
  summary : String
  categories : List String
deriving Repr, DecidableEq

/-- `Client.UpdateEnrichment`: `UPDATE repo SET ai_summary = $ai_summary,
ai_categories = $ai_categories, enriched_at = time::now() WHERE
full_name = $full_name` — updates every record whose `full_name` matches,
touching no other field (in particular not `embedding`); Go normalises nil
categories to the empty list, which a plain Lean list already is. -/
def UpdateEnrichment (now : Nat) (s : Store) (fullName summary : String)
    (categories : List String) : Store :=
  fun k =>
    (s k).map (fun rec =>
      if rec.full_name = some fullName then
        { rec with
          ai_summary := some summary
          ai_categories := some categories
          enriched_at := some now }
      else rec)

/-- One enrichment task (the closure passed to `g.Go`), applied to the
accumulated (store, completion counter, errgroup error): a Summarizer
failure or a store-write failure leaves the state unchanged apart from the
logged warning; a success stores the enrichment and bumps the counter.
The task's return value is nil in every branch, so the error component is
never set. -/
def enrichStep (summarize : Repo → Option SummaryResult)
    (writeOk : String → Bool) (now : Nat)
    (acc : Store × Nat × Option String) (r : Repo) :
    Store × Nat × Option String :=
  match summarize r with
  | none => acc
  | some res =>
    if writeOk r.fullName then
      (UpdateEnrichment now acc.1 r.fullName res.summary res.categories,
       acc.2.1 + 1, acc.2.2)
    else acc

/-- The enrichment stage over a target list: one task per repo, counter
starting at zero, errgroup error starting (and staying) `nil`. -/
def runEnrichment (summarize : Repo → Option SummaryResult)
    (writeOk : String → Bool) (now : Nat) (store : Store)
    (repos : List Repo) : Store × Nat × Option String :=
  repos.foldl (enrichStep summarize writeOk now) (store, 0, none)

/-- The fold never sets the errgroup error and counts exactly the items
whose summarization and store write both succeed. -/
theorem enrichFold_err_count (summarize : Repo → Option SummaryResult)
    (writeOk : String → Bool) (now : Nat) :
    ∀ (l : List Repo) (store : Store) (done : Nat) (err : Option String),
      (l.foldl (enrichStep summarize writeOk now) (store, done, err)).2.2 = err
      ∧ (l.foldl (enrichStep summarize writeOk now) (store, done, err)).2.1 =
          done + l.countP (fun r => (summarize r).isSome && writeOk r.fullName) := by
  intro l
  induction l with
  | nil =>
    intro store done err
    exact ⟨rfl, by simp⟩
  | cons r rest ih =>
    intro store done err
    rw [List.foldl_cons]
    cases hs : summarize r with
    | none =>
      have hstep : enrichStep summarize writeOk now (store, done, err) r =
          (store, done, err) := by
        rw [enrichStep, hs]
      rw [hstep, List.countP_cons]
      refine ⟨(ih store done err).1, ?_⟩
      rw [(ih store done err).2]
      simp [hs]
    | some res =>
      by_cases hw : writeOk r.fullName
      · have hstep : enrichStep summarize writeOk now (store, done, err) r =
            (UpdateEnrichment now store r.fullName res.summary res.categories,
             done + 1, err) := by
          rw [enrichStep, hs]
          simp [hw]
        rw [hstep, List.countP_cons]
        refine ⟨(ih _ _ _).1, ?_⟩
        rw [(ih _ _ _).2]
        simp [hs, hw]
        omega
      · have hstep : enrichStep summarize writeOk now (store, done, err) r =
            (store, done, err) := by
          rw [enrichStep, hs]
          simp [hw]
        rw [hstep, List.countP_cons]
        refine ⟨(ih store done err).1, ?_⟩
        rw [(ih store done err).2]
        simp [hs, hw]

/-- A record whose `full_name` only matches items whose task fails (the
Summarizer returns an error, or the store write of the result fails) is
never modified by the fold. -/
theorem enrichFold_untouched (summarize : Repo → Option SummaryResult)
    (writeOk : String → Bool) (now : Nat) :
    ∀ (l : List Repo) (store : Store) (done : Nat) (err : Option String)
      (k nm : String) (rec : StoredRepo),
      store k = some rec → rec.full_name = some nm →
      (∀ r ∈ l, r.fullName = nm →
        summarize r = none ∨ writeOk r.fullName = false) →
      (l.foldl (enrichStep summarize writeOk now) (store, done, err)).1 k =
        store k := by
  intro l
  induction l with
  | nil =>
    intro store done err k nm rec _ _ _
    rfl
  | cons r rest ih =>
    intro store done err k nm rec hk hnm hl
    rw [List.foldl_cons]
    have hrest : ∀ r' ∈ rest, r'.fullName = nm →
        summarize r' = none ∨ writeOk r'.fullName = false :=
      fun r' hm => hl r' (List.mem_cons_of_mem r hm)
    cases hs : summarize r with
    | none =>
      have hstep : enrichStep summarize writeOk now (store, done, err) r =
          (store, done, err) := by
        rw [enrichStep, hs]
      rw [hstep]
      exact ih store done err k nm rec hk hnm hrest
    | some res =>
      by_cases hw : writeOk r.fullName
      · have hne : r.fullName ≠ nm := by
          intro hcon
          rcases hl r (List.mem_cons_self r rest) hcon with hnone | hwf
          · exact absurd hs (by rw [hnone]; simp)
          · rw [hwf] at hw
            exact absurd hw (by simp)
        have hstep : enrichStep summarize writeOk now (store, done, err) r =
            (UpdateEnrichment now store r.fullName res.summary res.categories,
             done + 1, err) := by
          rw [enrichStep, hs]
          simp [hw]
        rw [hstep]
        have hk' : UpdateEnrichment now store r.fullName res.summary
            res.categories k = some rec := by
          rw [UpdateEnrichment, hk]
          have : (rec.full_name = some r.fullName) = False := by
            simp [hnm]
            intro hcon
            exact hne hcon.symm
          simp [this]
        rw [ih _ _ _ k nm rec hk' hnm hrest, hk', hk]
      · have hstep : enrichStep summarize writeOk now (store, done, err) r =
            (store, done, err) := by
          rw [enrichStep, hs]
          simp [hw]
        rw [hstep]
        exact ih store done err k nm rec hk hnm hrest

/-- The fold keeps every present record present with its `full_name`
intact (enrichment never deletes a record or rewrites its identity). -/
theorem enrichFold_keeps_fullname (summarize : Repo → Option SummaryResult)
    (writeOk : String → Bool) (now : Nat) :
    ∀ (l : List Repo) (store : Store) (done : Nat) (err : Option String)
      (k : String) (rec : StoredRepo),
      store k = some rec →
      ∃ rec', (l.foldl (enrichStep summarize writeOk now)
          (store, done, err)).1 k = some rec'
        ∧ rec'.full_name = rec.full_name := by
  intro l
  induction l with
  | nil =>
    intro store done err k rec hk
    exact ⟨rec, hk, rfl⟩
  | cons r rest ih =>
    intro store done err k rec hk
    rw [List.foldl_cons]
    cases hs : summarize r with
    | none =>
      have hstep : enrichStep summarize writeOk now (store, done, err) r =
          (store, done, err) := by
        rw [enrichStep, hs]
      rw [hstep]
      exact ih store done err k rec hk
    | some res =>
      by_cases hw : writeOk r.fullName
      · have hstep : enrichStep summarize writeOk now (store, done, err) r =
            (UpdateEnrichment now store r.fullName res.summary res.categories,
             done + 1, err) := by
          rw [enrichStep, hs]
          simp [hw]
        rw [hstep]
        by_cases hm : rec.full_name = some r.fullName
        · have hk' : UpdateEnrichment now store r.fullName res.summary
              res.categories k = some { rec with
                ai_summary := some res.summary
                ai_categories := some res.categories
                enriched_at := some now } := by
            rw [UpdateEnrichment, hk]
            simp [hm]
          obtain ⟨rec', h1, h2⟩ := ih _ _ _ k _ hk'
          exact ⟨rec', h1, h2⟩
        · have hk' : UpdateEnrichment now store r.fullName res.summary
              res.categories k = some rec := by
            rw [UpdateEnrichment, hk]
            simp [hm]
          exact ih _ _ _ k rec hk'
      · have hstep : enrichStep summarize writeOk now (store, done, err) r =
            (store, done, err) := by
          rw [enrichStep, hs]
          simp [hw]
        rw [hstep]
        exact ih store done err k rec hk

/-- Counting successful tasks: when a task predicate fails exactly on
items carrying one distinguished full name and holds elsewhere, the
success count plus the occurrences of that name is the batch length. -/
theorem enrichFold_count_split (p : Repo → Bool) (xname : String) :
    ∀ l : List Repo,
      (∀ r ∈ l, r.fullName = xname → p r = false) →
      (∀ r ∈ l, r.fullName ≠ xname → p r = true) →
      l.countP p + (l.map (·.fullName)).count xname = l.length := by
  intro l
  induction l with
  | nil =>
    intro _ _
    rfl
  | cons r rest ih =>
    intro hfail hok
    have h1 := ih (fun r' hm => hfail r' (List.mem_cons_of_mem r hm))
      (fun r' hm => hok r' (List.mem_cons_of_mem r hm))
    rw [List.countP_cons, List.map_cons, List.count_cons, List.length_cons]
    by_cases hn : r.fullName = xname
    · have hs : p r = false := hfail r (List.mem_cons_self r rest) hn
      have hb : (r.fullName == xname) = true := by simp [hn]
      rw [hs, hb]
      simp only [Bool.false_eq_true, if_false, if_true]
      omega
    · have hs : p r = true := hok r (List.mem_cons_self r rest) hn
      have hb : (r.fullName == xname) = false := by simp [hn]
      rw [hs, hb]
      simp only [Bool.false_eq_true, if_false, if_true]
      omega

/-- C5: if, for exactly one item of the batch, its task fails — the
Summarizer fails, or the store write of its result fails — while every
other item both summarizes and stores successfully, the Enrichment
Scheduler still completes and its errgroup result is nil (per-item
failures are logged warnings, never propagated; an error could only come
from context cancellation, which is outside this model): the other `N-1`
items are enriched in the store, the completion counter reads `N-1`, and
the failing item's record is untouched. -/
theorem enrichment_per_item_isolation
    (summarize : Repo → Option SummaryResult) (f : Repo → SummaryResult)
    (writeOk : String → Bool) (now : Nat) (store : Store)
    (repos : List Repo) (x : Repo)
    (hx : x ∈ repos)
    (hnodup : (repos.map (·.fullName)).Nodup)
    (hxfail : ∀ r ∈ repos, r.fullName = x.fullName →
        summarize r = none ∨
          (summarize r = some (f r) ∧ writeOk r.fullName = false))
    (hok : ∀ r ∈ repos, r.fullName ≠ x.fullName →
        summarize r = some (f r) ∧ writeOk r.fullName = true)
    (hstore : ∀ r ∈ repos, ∃ rec, store (recordId r.fullName) = some rec ∧
        rec.full_name = some r.fullName) :
    (runEnrichment summarize writeOk now store repos).2.2 = none
    ∧ (runEnrichment summarize writeOk now store repos).2.1 =
        repos.length - 1
    ∧ (∀ r ∈ repos, r.fullName ≠ x.fullName →
        ∃ rec, (runEnrichment summarize writeOk now store repos).1
            (recordId r.fullName) = some rec
          ∧ rec.ai_summary = some (f r).summary
          ∧ rec.ai_categories = some (f r).categories
          ∧ rec.enriched_at = some now)
    ∧ (runEnrichment summarize writeOk now store repos).1
        (recordId x.fullName) = store (recordId x.fullName) := by
  refine ⟨?_, ?_, ?_, ?_⟩
  · exact (enrichFold_err_count summarize writeOk now repos store 0 none).1
  · rw [runEnrichment,
      (enrichFold_err_count summarize writeOk now repos store 0 none).2]
    have hA : ∀ r ∈ repos, r.fullName = x.fullName →
        ((summarize r).isSome && writeOk r.fullName) = false := by
      intro r hm hcon
      rcases hxfail r hm hcon with h1 | ⟨h2, h3⟩
      · rw [h1]
        rfl
      · rw [h2, h3]
        rfl
    have hB : ∀ r ∈ repos, r.fullName ≠ x.fullName →
        ((summarize r).isSome && writeOk r.fullName) = true := by
      intro r hm hne
      obtain ⟨h1, h2⟩ := hok r hm hne
      rw [h1, h2]
      rfl
    have hcount := enrichFold_count_split
      (fun r => (summarize r).isSome && writeOk r.fullName) x.fullName repos hA hB
    have hone : (repos.map (·.fullName)).count x.fullName = 1 :=
      List.count_eq_one_of_mem hnodup (List.mem_map_of_mem (·.fullName) hx)
    omega
  · intro r hr hrx
    obtain ⟨l1, l2, hd⟩ := List.append_of_mem hr
    have hnotin2 : r.fullName ∉ l2.map (·.fullName) := by
      rw [hd, List.map_append, List.map_cons] at hnodup
      exact (List.nodup_cons.mp (List.Nodup.of_append_right hnodup)).1
    obtain ⟨rec0, hrec0, hfn0⟩ := hstore r hr
    rw [runEnrichment, hd, List.foldl_append, List.foldl_cons]
    obtain ⟨rec1, hrec1, hfn1⟩ :=
      enrichFold_keeps_fullname summarize writeOk now l1 store 0 none
        (recordId r.fullName) rec0 hrec0
    obtain ⟨hsum, hwr⟩ := hok r hr hrx
    have hstep : ∀ acc : Store × Nat × Option String,
        enrichStep summarize writeOk now acc r =
          (UpdateEnrichment now acc.1 r.fullName (f r).summary
            (f r).categories, acc.2.1 + 1, acc.2.2) := by
      intro acc
      rw [enrichStep, hsum]
      simp [hwr]
    rw [hstep]
    have hfn1' : rec1.full_name = some r.fullName := hfn1.trans hfn0
    have henr : UpdateEnrichment now
        (l1.foldl (enrichStep summarize writeOk now)
          (store, 0, none)).1
        r.fullName (f r).summary (f r).categories (recordId r.fullName) =
        some { rec1 with
          ai_summary := some (f r).summary
          ai_categories := some (f r).categories
          enriched_at := some now } := by
      rw [UpdateEnrichment, hrec1]
      simp [hfn1']
    have hvac : ∀ r' ∈ l2, r'.fullName = r.fullName →
        summarize r' = none ∨ writeOk r'.fullName = false := by
      intro r' hm hcon
      exact absurd (hcon ▸ List.mem_map_of_mem (·.fullName) hm) hnotin2
    have huntouched := enrichFold_untouched summarize writeOk now l2 _
      ((l1.foldl (enrichStep summarize writeOk now)
        (store, 0, none)).2.1 + 1)
      ((l1.foldl (enrichStep summarize writeOk now)
        (store, 0, none)).2.2)
      (recordId r.fullName) r.fullName _ henr (by exact hfn1') hvac
    refine ⟨{ rec1 with
      ai_summary := some (f r).summary
      ai_categories := some (f r).categories
      enriched_at := some now }, ?_, rfl, rfl, rfl⟩
    rw [huntouched, henr]
  · obtain ⟨recx, hrecx, hfnx⟩ := hstore x hx
    refine enrichFold_untouched summarize writeOk now repos store 0 none
      (recordId x.fullName) x.fullName recx hrecx hfnx ?_
    intro r hm hcon
    rcases hxfail r hm hcon with h1 | ⟨-, h3⟩
    · exact Or.inl h1
    · exact Or.inr h3

/-- A test Summarizer failing exactly on the item named `o/x`. -/
def exSummarize (r : Repo) : Option SummaryResult :=
  if r.fullName = "o/x" then none
  else some { summary := "s", categories := ["c"] }

/-- A test store holding records for `o/x` and `o/y`. -/
def exStore : Store := fun k =>
  if k = "o__x" then some { full_name := some "o/x" }
  else if k = "o__y" then some { full_name := some "o/y" }
  else none

/-- Test item whose summarization fails. -/
def exRepoX : Repo := { owner := "o", name := "x", fullName := "o/x" }

/-- Test item whose summarization succeeds. -/
def exRepoY : Repo := { owner := "o", name := "y", fullName := "o/y" }

/-- A test Summarizer succeeding on every item (for the write-failure
scenario). -/
def exSummarizeOk (_ : Repo) : Option SummaryResult :=
  some { summary := "s", categories := ["c"] }

/-- A test store-write outcome failing exactly for the item named `o/x`. -/
def exWriteOk (fn : String) : Bool := fn != "o/x"

/-- Witness for C5 on a concrete batch of two items, exercising both
failure modes: the Summarizer failing for `o/x` (writes all succeeding),
and the Summarizer succeeding everywhere with the store write for `o/x`
failing. -/
theorem enrichment_per_item_isolation_witness :
    ((runEnrichment exSummarize (fun _ => true) 7 exStore
        [exRepoX, exRepoY]).2.2 = none
    ∧ (runEnrichment exSummarize (fun _ => true) 7 exStore
        [exRepoX, exRepoY]).2.1 = ([exRepoX, exRepoY] : List Repo).length - 1
    ∧ (∀ r ∈ [exRepoX, exRepoY], r.fullName ≠ exRepoX.fullName →
        ∃ rec, (runEnrichment exSummarize (fun _ => true) 7 exStore
            [exRepoX, exRepoY]).1 (recordId r.fullName) = some rec
          ∧ rec.ai_summary = some ({ summary := "s", categories := ["c"] }
              : SummaryResult).summary
          ∧ rec.ai_categories = some ({ summary := "s", categories := ["c"] }
              : SummaryResult).categories
          ∧ rec.enriched_at = some 7)
    ∧ (runEnrichment exSummarize (fun _ => true) 7 exStore
        [exRepoX, exRepoY]).1 (recordId exRepoX.fullName) =
        exStore (recordId exRepoX.fullName))
    ∧ ((runEnrichment exSummarizeOk exWriteOk 7 exStore
        [exRepoX, exRepoY]).2.2 = none
    ∧ (runEnrichment exSummarizeOk exWriteOk 7 exStore
        [exRepoX, exRepoY]).2.1 = ([exRepoX, exRepoY] : List Repo).length - 1
    ∧ (∀ r ∈ [exRepoX, exRepoY], r.fullName ≠ exRepoX.fullName →
        ∃ rec, (runEnrichment exSummarizeOk exWriteOk 7 exStore
            [exRepoX, exRepoY]).1 (recordId r.fullName) = some rec
          ∧ rec.ai_summary = some ({ summary := "s", categories := ["c"] }
              : SummaryResult).summary
          ∧ rec.ai_categories = some ({ summary := "s", categories := ["c"] }
              : SummaryResult).categories
          ∧ rec.enriched_at = some 7)
    ∧ (runEnrichment exSummarizeOk exWriteOk 7 exStore
        [exRepoX, exRepoY]).1 (recordId exRepoX.fullName) =
        exStore (recordId exRepoX.fullName)) := by
  have hstore : ∀ r ∈ [exRepoX, exRepoY],
      ∃ rec, exStore (recordId r.fullName) = some rec ∧
        rec.full_name = some r.fullName := by
    intro r hr
    rcases List.mem_cons.mp hr with h | h
    · subst h
      exact ⟨{ full_name := some "o/x" }, rfl, rfl⟩
    · rcases List.mem_cons.mp h with h2 | h2
      · subst h2
        exact ⟨{ full_name := some "o/y" }, rfl, rfl⟩
      · exact absurd h2 (List.not_mem_nil r)
  exact ⟨enrichment_per_item_isolation exSummarize
      (fun _ => { summary := "s", categories := ["c"] }) (fun _ => true) 7
      exStore [exRepoX, exRepoY] exRepoX (by decide) (by decide) (by decide)
      (by decide) hstore,
    enrichment_per_item_isolation exSummarizeOk
      (fun _ => { summary := "s", categories := ["c"] }) exWriteOk 7
      exStore [exRepoX, exRepoY] exRepoX (by decide) (by decide) (by decide)
      (by decide) hstore⟩

/-! ## Item resolution (`loadRepos` / `fetchAndCache` of
`internal/pipeline/pipeline.go`)

The cache read and the two remote fetches are external effects; they enter
the model as parameters: `cacheRead` is the result of `readCache()`
(`none` on a missing/corrupt file), `forwardResult` and `incResult` the
outcomes of the Full and Incremental strategy calls.  Alongside the
returned repo list the model records, as a ghost trace, the list of
`writeCache` attempts performed (a failed write only logs a warning, so
success/failure of the write itself does not branch). -/

/-- `fetchAndCache`: on fetch failure the error is wrapped and nothing is
cached; on success the result is cached (best effort) and returned. -/
def fetchAndCache (fetchResult : Except String (List Repo)) :
    Except String (List Repo) × List (List Repo) :=
  match fetchResult with
  | .error e => (.error ("fetching star list: " ++ e), [])
  | .ok repos => (.ok repos, [repos])

/-- `loadRepos`: forced refresh → full fetch; else a non-empty readable
cache → incremental fetch, falling back to the cache unmodified (and
writing nothing) when the incremental fetch fails, re-caching only when
new repos were found; else full fetch. -/
def loadRepos (refresh : Bool) (cacheRead : Option (List Repo))
    (forwardResult incResult : Except String (List Repo)) :
    Except String (List Repo) × List (List Repo) :=
  if refresh then fetchAndCache forwardResult
  else
    match cacheRead with
    | some cached =>
      if 0 < cached.length then
        match incResult with
        | .error _ => (.ok cached, [])
        | .ok repos =>
          if cached.length < repos.length then (.ok repos, [repos])
          else (.ok repos, [])
      else fetchAndCache forwardResult
    | none => fetchAndCache forwardResult

/-- C6: with a non-empty cached known set, an outright incremental-fetch
failure degrades to "no update": the item-resolution step returns the
cached set unmodified with no error, and performs no cache write.  (Stated
for `r :: tl`, i.e. an arbitrary non-empty cache.) -/
theorem loadRepos_incremental_failure_fallback (r : Repo) (tl : List Repo)
    (e : String) (forwardResult : Except String (List Repo)) :
    loadRepos false (some (r :: tl)) forwardResult (.error e) =
      (.ok (r :: tl), []) := by
  rw [loadRepos, if_neg (by simp), if_pos (by simp)]

end StarWatch
